import Mathlib

/-!
Verification development for the `radix-ecmascript` crate: a Rust port of
V8's `DoubleToRadixCString` (ECMAScript "ToString Applied to the Number
Type", radix 2..36) together with the bit-level f64 helpers it uses.

The embedding works on raw IEEE 754 binary64 bit patterns represented as
`Nat` (< 2^64), exactly as the Rust code works on `u64` obtained from
`f64::to_bits`.  Floating-point arithmetic performed by the Rust code
(`+`, `-`, `*`, `/`, `%`, `floor`, `abs`, casts, comparisons) is embedded
as executable functions on bit patterns implementing IEEE 754 binary64
round-to-nearest-even semantics via exact integer arithmetic.
-/

set_option maxRecDepth 40000

namespace RadixEcma

/-! ### Constants from `src/f64_util.rs` -/

def kSignMask : Nat := 0x8000000000000000

def kExponentMask : Nat := 0x7FF0000000000000

def kSignificandMask : Nat := 0x000FFFFFFFFFFFFF

def kHiddenBit : Nat := 0x0010000000000000

def kInfinity : Nat := 0x7FF0000000000000

def kPhysicalSignificandSize : Nat := 52

def kExponentBias : Int := 0x3FF + 52

def kDenormalExponent : Int := -kExponentBias + 1

/-! ### Bit-level helpers from `src/f64_util.rs`

`f64::to_bits` / `f64::from_bits` are the identity here because we work on
bit patterns throughout. -/

/-- `is_denormal` (f64_util.rs): the exponent field is all-zero. -/
def is_denormal (bits : Nat) : Bool := bits &&& kExponentMask == 0

/-- `significand` (f64_util.rs): significand field, with the hidden bit
added back for non-denormal patterns. -/
def significand (bits : Nat) : Nat :=
  let s := bits &&& kSignificandMask
  if is_denormal bits then s else s + kHiddenBit

/-- `is_pos` (f64_util.rs): the sign bit is clear. -/
def is_pos (bits : Nat) : Bool := bits &&& kSignMask == 0

/-- `next_float` (f64_util.rs), on bit patterns. -/
def next_float (bits : Nat) : Nat :=
  if bits == kInfinity then bits
  else
    let is_neg := !(is_pos bits)
    if is_neg && significand bits == 0 then 0
    else if is_neg then bits - 1 else bits + 1

/-- `exponent` (f64_util.rs).  The Rust source reads
`(bits & K_EXPONENT_MASK >> K_PHYSICAL_SIGNIFICAND_SIZE) as i32`; in Rust
`>>` binds tighter than `&`, so this is `bits & (K_EXPONENT_MASK >> 52)`,
i.e. `bits & 0x7FF`, the low 11 bits of the pattern. -/
def exponent (bits : Nat) : Int :=
  if is_denormal bits then kDenormalExponent
  else
    let biased : Int := (bits &&& (kExponentMask >>> kPhysicalSignificandSize) : Nat)
    biased - kExponentBias

/-- Specification version of `exponent`, for comparison: the biased
11-bit exponent *field* (`(bits & K_EXPONENT_MASK) >> 52`) minus the
exponent bias, as in V8's `double.h`; denormals report the fixed minimum
exponent. -/
def exponentSpec (bits : Nat) : Int :=
  if is_denormal bits then kDenormalExponent
  else
    let biased : Int := ((bits &&& kExponentMask) >>> kPhysicalSignificandSize : Nat)
    biased - kExponentBias

/-! ### Field accessors (arithmetic form) used by the IEEE 754 layer -/

/-- Biased exponent field (bits 52..62) of a pattern. -/
def efield (p : Nat) : Nat := p / 2 ^ 52 % 2 ^ 11

/-- Significand field (bits 0..51) of a pattern. -/
def sfield (p : Nat) : Nat := p % 2 ^ 52

/-- Sign bit (bit 63) of a pattern. -/
def signB (p : Nat) : Bool := p / 2 ^ 63 % 2 == 1

/-- The pattern is a NaN: exponent field all ones, nonzero significand. -/
def isNanP (p : Nat) : Bool := efield p == 2047 && sfield p != 0

/-- The pattern is an infinity: exponent field all ones, zero significand. -/
def isInfP (p : Nat) : Bool := efield p == 2047 && sfield p == 0

/-- Integral significand of a finite pattern: `sfield` plus the hidden
bit for normal patterns. -/
def mant (p : Nat) : Nat := if efield p = 0 then sfield p else sfield p + 2 ^ 52

/-- Binary exponent of a finite pattern, scaled so that the value of the
pattern is `mant p * 2 ^ mexp p`. -/
def mexp (p : Nat) : Int := if efield p = 0 then -1074 else (efield p : Int) - 1075

/-- Scaled integer magnitude of a finite pattern: the exact absolute
value of the pattern times `2 ^ 1075`. -/
def natMag (p : Nat) : Nat := mant p * 2 ^ max (efield p) 1

/-- Exact rational value of a finite f64 bit pattern. -/
def valQ (p : Nat) : ℚ :=
  (if signB p then -1 else 1) * ((natMag p : ℚ) / 2 ^ 1075)

/-! ### IEEE 754 binary64 arithmetic on bit patterns

All arithmetic the Rust code performs on `f64` values is embedded here as
exact integer computation followed by round-to-nearest-even.  Values are
carried as bit patterns; a finite pattern `p` denotes `mant p * 2 ^ mexp p`
(negated if the sign bit is set). -/

/-- One step of the bit-length cascade: if `n ≥ 2^k`, divide by `2^k` and
record `k` bits. -/
def nbStep (k : Nat) (p : Nat × Nat) : Nat × Nat :=
  if 1 <<< k ≤ p.1 then (p.1 >>> k, p.2 + k) else p

/-- Number of binary digits of `n` (`⌊log2 n⌋ + 1` for `n ≥ 1`, `0` for
`0`), valid for `n < 2 ^ 8192`, computed without recursion so that the
kernel can evaluate it. -/
def nbits (n : Nat) : Nat :=
  let p := nbStep 1 (nbStep 2 (nbStep 4 (nbStep 8 (nbStep 16 (nbStep 32
    (nbStep 64 (nbStep 128 (nbStep 256 (nbStep 512 (nbStep 1024 (nbStep 2048
      (nbStep 4096 (n, 0)))))))))))))
  p.2 + p.1

/-- A RESERVED quiet NaN pattern, produced by invalid operations (never
actually reached by the algorithm under study). -/
def nanP : Nat := 0x7FF8000000000000

/-- Attach a sign bit to a nonnegative magnitude pattern. -/
def sgnPack (neg : Bool) (m : Nat) : Nat := if neg then 2 ^ 63 + m else m

/-- Assemble a nonnegative pattern from `m * 2 ^ F` with
`m ≤ 2 ^ 53 - 1`, where `m < 2 ^ 52` only occurs with `F = -1074`
(subnormal); overflow gives infinity. -/
def pack (m : Nat) (F : Int) : Nat :=
  if 971 < F then kInfinity
  else if m < 2 ^ 52 then m
  else ((F + 1075).toNat <<< 52) + (m - 2 ^ 52)

/-- Round-to-nearest-even of the nonnegative real `(M + ρ) * 2 ^ E`
(`ρ = 0` if `sticky = false`, some `ρ ∈ (0,1)` if `sticky = true`) to a
nonnegative f64 bit pattern (overflow gives the +infinity pattern).
Callers only pass `sticky = true` when the rounding shift below is
positive (division supplies ≥ 15 guard bits), so the sticky bit is only
consulted in the inexact branch. -/
def roundMag (M : Nat) (E : Int) (sticky : Bool) : Nat :=
  if M = 0 then 0
  else
    let L : Nat := nbits M - 1
    let F : Int := max (E + L - 52) (-1074)
    if F ≤ E then
      pack (M <<< (E - F).toNat) F
    else
      let s : Nat := (F - E).toNat
      let m0 : Nat := M >>> s
      let r : Nat := M % (1 <<< s)
      let half : Nat := 1 <<< (s - 1)
      let up : Bool := half < r || (r == half && (sticky || m0 % 2 == 1))
      let m : Nat := m0 + (if up then 1 else 0)
      if m = 2 ^ 53 then pack (2 ^ 52) (F + 1) else pack m F

/-- `x as f64` for a nonnegative integer (round-to-nearest-even). -/
def natToF64 (n : Nat) : Nat := roundMag n 0 false

/-- IEEE 754 negation: flip the sign bit. -/
def fNeg (p : Nat) : Nat := if p < 2 ^ 63 then p + 2 ^ 63 else p - 2 ^ 63

/-- `f64::abs`: clear the sign bit. -/
def fAbs (p : Nat) : Nat := p % 2 ^ 63

/-- IEEE 754 addition (round-to-nearest-even). -/
def fAdd (p q : Nat) : Nat :=
  if isNanP p || isNanP q then nanP
  else if isInfP p then (if isInfP q && signB p ≠ signB q then nanP else p)
  else if isInfP q then q
  else if mant p = 0 && mant q = 0 then
    -- both zero: (+0)+(+0)=+0, (-0)+(-0)=-0, mixed = +0 in this mode
    (if signB p && signB q then 2 ^ 63 else 0)
  else
    let E : Int := min (mexp p) (mexp q)
    let A : Int := (if signB p then -1 else 1) * (mant p <<< (mexp p - E).toNat : Nat)
    let B : Int := (if signB q then -1 else 1) * (mant q <<< (mexp q - E).toNat : Nat)
    let M : Int := A + B
    if M = 0 then 0
    else if 0 < M then roundMag M.toNat E false
    else sgnPack true (roundMag (-M).toNat E false)

/-- IEEE 754 subtraction: `p - q = p + (-q)`. -/
def fSub (p q : Nat) : Nat := fAdd p (fNeg q)

/-- IEEE 754 multiplication (round-to-nearest-even). -/
def fMul (p q : Nat) : Nat :=
  if isNanP p || isNanP q then nanP
  else
    let neg := signB p ≠ signB q
    if isInfP p then (if mant q = 0 ∧ ¬isInfP q then nanP else sgnPack neg kInfinity)
    else if isInfP q then (if mant p = 0 then nanP else sgnPack neg kInfinity)
    else if mant p = 0 || mant q = 0 then sgnPack neg 0
    else sgnPack neg (roundMag (mant p * mant q) (mexp p + mexp q) false)

/-- IEEE 754 division (round-to-nearest-even), via 120 guard bits plus a
sticky bit. -/
def fDiv (p q : Nat) : Nat :=
  if isNanP p || isNanP q then nanP
  else
    let neg := signB p ≠ signB q
    if isInfP p then (if isInfP q then nanP else sgnPack neg kInfinity)
    else if isInfP q then sgnPack neg 0
    else if mant q = 0 then (if mant p = 0 then nanP else sgnPack neg kInfinity)
    else if mant p = 0 then sgnPack neg 0
    else
      let N : Nat := mant p <<< 120
      let Q : Nat := N / mant q
      let R : Nat := N % mant q
      sgnPack neg (roundMag Q (mexp p - mexp q - 120) (R != 0))

/-- Rust `%` on `f64` (C `fmod`): exact remainder of truncating division,
with the sign of the dividend. -/
def fMod (p q : Nat) : Nat :=
  if isNanP p || isNanP q || isInfP p || (!isInfP q && mant q = 0) then nanP
  else if isInfP q then p
  else if mant p = 0 then p
  else
    let E : Int := min (mexp p) (mexp q)
    let X : Nat := mant p <<< (mexp p - E).toNat
    let Y : Nat := mant q <<< (mexp q - E).toNat
    sgnPack (signB p) (roundMag (X % Y) E false)

/-- `f64::floor`: round toward negative infinity (exact). -/
def fFloor (p : Nat) : Nat :=
  if efield p = 2047 then p
  else if 0 ≤ mexp p then p
  else
    let s : Nat := (-mexp p).toNat
    let k : Nat := mant p >>> s
    let frac : Nat := mant p % (1 <<< s)
    if signB p then
      sgnPack true (roundMag (k + (if frac = 0 then 0 else 1)) 0 false)
    else roundMag k 0 false

/-- Comparison of two non-NaN patterns by value. -/
def fcmp (p q : Nat) : Ordering :=
  if mant p = 0 && mant q = 0 && efield p ≠ 2047 && efield q ≠ 2047 then .eq
  else
    let key : Nat → Int := fun x =>
      (if signB x then -1 else 1) *
        ((mant x <<< (mexp x + 1074).toNat : Nat) <<< (if efield x = 2047 then 80 else 0))
    compare (key p) (key q)

/-- Rust `<` on `f64` (false if either is NaN). -/
def fLt (p q : Nat) : Bool := !isNanP p && !isNanP q && fcmp p q == .lt

/-- Rust `<=` on `f64`. -/
def fLe (p q : Nat) : Bool := !isNanP p && !isNanP q && (fcmp p q == .lt || fcmp p q == .eq)

/-- Rust `>` on `f64`. -/
def fGt (p q : Nat) : Bool := fLt q p

/-- Rust `>=` on `f64`. -/
def fGe (p q : Nat) : Bool := fLe q p

/-- Rust `==` on `f64` (false if either is NaN, `-0.0 == 0.0`). -/
def fEq (p q : Nat) : Bool := !isNanP p && !isNanP q && fcmp p q == .eq

/-- `f64::max` (here only used on non-NaN arguments). -/
def fMax (p q : Nat) : Nat :=
  if isNanP p then q else if isNanP q then p else if fLt p q then q else p

/-- Rust `as usize` cast from `f64`: truncate toward zero, saturating;
NaN gives 0. -/
def f64ToUsize (p : Nat) : Nat :=
  if isNanP p then 0
  else if signB p then 0
  else if isInfP p then 2 ^ 64 - 1
  else
    let k : Nat :=
      if 0 ≤ mexp p then mant p <<< (mexp p).toNat else mant p >>> (-mexp p).toNat
    min k (2 ^ 64 - 1)

/-! ### `to_radix_str` (src/lib.rs)

The 2200-character working buffer with its two cursors is modelled by two
stacks of characters.

* `intList` holds the characters written left of the midpoint, head =
  leftmost (most recently written); `int_cursor = 1100 - intList.length`.
  Rust's `int_cursor -= 1` underflows (and the subsequent `buf[int_cursor]`
  write is out of bounds) exactly when `intList.length = 1100`; this is
  modelled as `crash`.
* `stack` holds the characters written right of the midpoint in reverse,
  head = rightmost (most recently written); the `'.'` inserted first is at
  the bottom; `fraction_cursor = 1100 + stack.length`.  The write
  `buf[fraction_cursor]` is out of bounds exactly when
  `1100 + stack.length = 2200`.

The final string is the buffer slice `[int_cursor, fraction_cursor)`,
i.e. `intList ++ stack.reverse`. -/

/-- Result of a call: `ok`/`err` mirror Rust's `Result`; `crash` marks a
run that panics (cursor underflow / out-of-range indexing); `fuelOut` is
an artifact of the fuelled loops and is proved unreachable. -/
inductive RadixResult where
  | ok (s : String)
  | err (base : Nat)
  | crash
  | fuelOut
deriving DecidableEq

/-- Outcome of one of the three fuelled loops. -/
inductive LoopOut (α : Type) where
  | out (a : α)
  | crash
  | fuelOut
deriving DecidableEq

/-- The `CHARS` array from `to_radix_str`: the 36 digit characters
`0`-`9` followed by `a`-`z`. -/
def CHARS : List Char := "0123456789abcdefghijklmnopqrstuvwxyz".data

/-- `CHARS[i]` with the bounds check of Rust indexing. -/
def charAt (i : Nat) : Option Char := CHARS.get? i

/-- Digit reconstruction in the carry walk:
`if c > '9' { c - 'a' + 10 } else { c - '0' }`.  (Only ever applied to
characters of `CHARS`, for which the subtractions cannot underflow.) -/
def digitOfChar (c : Char) : Nat :=
  if '9' < c then c.toNat - 'a'.toNat + 10 else c.toNat - '0'.toNat

/-- The backward carry walk over already written fractional digits
(inner `loop` of `to_radix_str`).  Walks down the stack; reaching the
bottom element means `fraction_cursor == BUFFER_LEN / 2`, which carries
into the integer part (second component `true`) and leaves the fractional
part empty.  Characters above the final cursor are dropped, matching the
cursor-slice semantics.  `none` models a panic from `CHARS` indexing
(unreachable, as `digit + 1 < base ≤ 36`). -/
def carryWalk (base : Nat) : List Char → Option (List Char × Bool)
  | [] => some ([], true)
  | c :: rest =>
    if rest.isEmpty then some ([], true)
    else
      let digit := digitOfChar c
      if digit + 1 < base then
        match charAt (digit + 1) with
        | none => none
        | some c' => some (c' :: rest, false)
      else carryWalk base rest

/-- Bit pattern of the literal `0.5`. -/
def halfP : Nat := 0x3FE0000000000000

/-- Bit pattern of the literal `1.0`. -/
def oneP : Nat := 0x3FF0000000000000

/-- The fractional-digit loop of `to_radix_str`.  State: `fraction`,
`delta`, `integer` (bit patterns) and the fractional stack.  Returns the
final stack and integer part. -/
def fracLoop (base baseF : Nat) :
    Nat → Nat → Nat → Nat → List Char → LoopOut (List Char × Nat)
  | 0, _, _, _, _ => .fuelOut
  | fuel + 1, fraction0, delta0, integer, stack =>
    -- Shift up by one digit.
    let fraction := fMul fraction0 baseF
    let delta := fMul delta0 baseF
    -- Write digit.
    let digit := f64ToUsize fraction
    match charAt digit with
    | none => .crash
    | some c =>
      if 1100 + stack.length < 2200 then
        let stack' := c :: stack
        -- Calculate remainder.
        let fraction' := fSub fraction (natToF64 digit)
        -- Round to even.
        if (fGt fraction' halfP || (fEq fraction' halfP && digit % 2 == 1))
            && fGt (fAdd fraction' delta) oneP then
          match carryWalk base stack' with
          | none => .crash
          | some (stack'', carry) =>
            .out (stack'', if carry then fAdd integer oneP else integer)
        else if fLt fraction' delta then .out (stack', integer)
        else fracLoop base baseF fuel fraction' delta integer stack'
      else .crash

/-- The leading-zero fill loop of `to_radix_str`
(`while exponent(integer / base) > 0`). -/
def fillLoop (baseF : Nat) : Nat → Nat → List Char → LoopOut (Nat × List Char)
  | 0, _, _ => .fuelOut
  | fuel + 1, integer, intList =>
    if 0 < exponent (fDiv integer baseF) then
      if intList.length < 1100 then
        fillLoop baseF fuel (fDiv integer baseF) ('0' :: intList)
      else .crash
    else .out (integer, intList)

/-- The integer-digit loop of `to_radix_str` (the final `loop`). -/
def intLoop (baseF : Nat) : Nat → Nat → List Char → LoopOut (List Char)
  | 0, _, _ => .fuelOut
  | fuel + 1, integer, intList =>
    let remainder := fMod integer baseF
    if intList.length < 1100 then
      match charAt (f64ToUsize remainder) with
      | none => .crash
      | some c =>
        let integer' := fDiv (fSub integer remainder) baseF
        if fLe integer' 0 then .out (c :: intList)
        else intLoop baseF fuel integer' (c :: intList)
    else .crash

/-- The fractional phase of `to_radix_str`: if `fraction >= delta`,
insert the decimal point (at the midpoint, always in bounds) and run the
fractional-digit loop; otherwise the fractional part stays empty. -/
def fracPart (base baseF fraction delta integer : Nat) : LoopOut (List Char × Nat) :=
  if fGe fraction delta then
    fracLoop base baseF 1200 fraction delta integer ['.']
  else .out ([], integer)

/-- The integer phase of `to_radix_str`: leading-zero fill loop, then the
integer-digit loop, then the sign prefix, then assembling the buffer
slice into the result string. -/
def intPart (baseF : Nat) (neg : Bool) (integer : Nat) (stack : List Char) :
    RadixResult :=
  -- Compute integer digits. Fill unrepresented digits with zero.
  match fillLoop baseF 1300 integer [] with
  | .crash => .crash
  | .fuelOut => .fuelOut
  | .out (integer2, intList) =>
    match intLoop baseF 1300 integer2 intList with
    | .crash => .crash
    | .fuelOut => .fuelOut
    | .out intList' =>
      -- Add sign if negative.
      if neg then
        if intList'.length < 1100 then
          .ok (String.mk (('-' :: intList') ++ stack.reverse))
        else .crash
      else .ok (String.mk (intList' ++ stack.reverse))

/-- Chain the fractional phase result into the integer phase. -/
def dispatchFrac (baseF : Nat) (neg : Bool) : LoopOut (List Char × Nat) → RadixResult
  | .crash => .crash
  | .fuelOut => .fuelOut
  | .out (stack, integer1) => intPart baseF neg integer1 stack

/-- `to_radix_str` for `f64` (src/lib.rs), on bit patterns.
`self` is the bit pattern of the input value, `base` the requested base
(`u8` in Rust). -/
def to_radix_str (self : Nat) (base : Nat) : RadixResult :=
  -- Validate base at runtime
  if ¬(2 ≤ base ∧ base ≤ 36) then .err base
  -- The result is always "NaN" if self is NaN.
  else if isNanP self then .ok "NaN"
  -- If self is +0 or -0, return "0".
  else if fEq self 0 then .ok "0"
  -- If self is +Infinity, return "Infinity".
  -- If self is -Infinity, return "-Infinity".
  else if isInfP self then .ok (if signB self then "-Infinity" else "Infinity")
  else
    -- The value to reference and modify instead of self
    let value := fAbs self
    -- Split the value into an integer part and a fractional part.
    let integer := fFloor value
    let fraction := fSub value integer
    -- We only compute fractional digits up to the input's precision.
    let delta := fMax (fMul halfP (fSub (next_float value) value))
      (next_float 0)
    let baseF := natToF64 base
    dispatchFrac baseF (signB self) (fracPart base baseF fraction delta integer)

/-! ### Auxiliary definitions for stating the claims -/

/-- Bit pattern of the largest finite f64. -/
def maxFiniteP : Nat := 0x7FEFFFFFFFFFFFFF

/-- Value of a single digit character, as used for parsing a radix
string: its index in `CHARS` if that index is below `base`. -/
def digitVal (base : Nat) (c : Char) : Option Nat :=
  (CHARS.take base).indexOf? c

/-- Parse a string of base-`base` digits as a natural number (the exact
mathematical value denoted by an integer radix string). -/
def parseRadixNat (s : String) (base : Nat) : Option Nat :=
  s.data.foldl
    (fun acc c =>
      match acc, digitVal base c with
      | some a, some d => some (a * base + d)
      | _, _ => none)
    (some 0)

/-! ### Bit-mask bridge lemmas -/

/-- Masking with a contiguous block of `a` ones starting at bit `k`
extracts the bit field `x / 2 ^ k % 2 ^ a` (shifted back into place). -/
theorem land_mask (x a k : Nat) :
    x &&& (2 ^ a - 1) * 2 ^ k = x / 2 ^ k % 2 ^ a * 2 ^ k := by
  rw [← Nat.shiftLeft_eq (2 ^ a - 1) k, ← Nat.shiftLeft_eq _ k,
    ← Nat.shiftRight_eq_div_pow]
  apply Nat.eq_of_testBit_eq
  intro i
  simp only [Nat.testBit_land, Nat.testBit_shiftLeft, Nat.testBit_two_pow_sub_one,
    Nat.testBit_mod_two_pow, Nat.testBit_shiftRight]
  by_cases h : k ≤ i
  · have hki : k + (i - k) = i := by omega
    simp only [ge_iff_le, h, decide_True, Bool.true_and, hki]
    cases hx : x.testBit i <;> simp [Bool.and_comm]
  · simp [h]

theorem land_sig (p : Nat) : p &&& kSignificandMask = p % 2 ^ 52 := by
  have h := land_mask p 52 0
  norm_num at h
  simpa [kSignificandMask] using h

theorem land_exp (p : Nat) : p &&& kExponentMask = p / 2 ^ 52 % 2 ^ 11 * 2 ^ 52 := by
  have h := land_mask p 11 52
  norm_num at h
  simpa [kExponentMask] using h

theorem land_sign (p : Nat) : p &&& kSignMask = p / 2 ^ 63 % 2 * 2 ^ 63 := by
  have h := land_mask p 1 63
  norm_num at h
  simpa [kSignMask] using h

theorem land_low11 (p : Nat) : p &&& 2047 = p % 2 ^ 11 := by
  have h := land_mask p 11 0
  norm_num at h
  simpa using h

/-! ### Claim theorems -/

/-- **C2.** `to_radix_str` returns exactly the spec's concrete vectors:
`0.123` (bits `0x3FBF7CED916872B0`) at base 16 gives `"0.1f7ced916872b"`,
and `0.05217266072382676` (bits `0x3FAAB65FFF1BB830`) at bases 2 and 36
gives the two long vectors. -/
theorem to_radix_str_concrete_vectors :
    to_radix_str 4593527504729830064 16 = RadixResult.ok "0.1f7ced916872b" ∧
    to_radix_str 4587679693848426544 2 =
      RadixResult.ok "0.00001101010110110010111111111111100011011101110000011" ∧
    to_radix_str 4587679693848426544 36 = RadixResult.ok "0.1vm61aaabtc" := by
  refine ⟨by decide, by decide, by decide⟩

/-- **C3.** The claim says `exponent` returns `biased_field - bias` for
non-denormal patterns, but the code computes `bits & (MASK >> 52)` =
`bits & 0x7FF` due to Rust operator precedence (`>>` binds tighter than
`&`).  At the pattern of `2.0` (`0x4000000000000000`, biased exponent
field `0x400`) the code yields `-1075` while the specified field-based
computation yields `1024 - 1075 = -51`.  For denormal patterns both agree
on `-1074`. -/
theorem exponent_code_bug :
    exponent 4611686018427387904 = -1075 ∧
    exponentSpec 4611686018427387904 = -51 ∧
    exponent 1 = -1074 ∧ exponentSpec 1 = -1074 := by
  refine ⟨by decide, by decide, by decide, by decide⟩

/-- **C1.** Round-trip failure: for the finite value
`100000000000000016.0 = 1e17 + 16` (bits `0x4376345785D8A001`) and base
10, the code outputs `"100000000000000026"`; that string denotes the
integer `100000000000000026`, whose correctly rounded f64 pattern is
`0x4376345785D8A002` — not the original pattern.  (The exact value of the
original pattern is `100000000000000016`, which does round-trip, so the
failure is the code's, caused by the `exponent` precedence bug skipping
the leading-zero fill division.) -/
theorem to_radix_str_roundtrip_counterexample :
    to_radix_str 4861130398305394689 10 = RadixResult.ok "100000000000000026" ∧
    parseRadixNat "100000000000000026" 10 = some 100000000000000026 ∧
    natMag 4861130398305394689 = 100000000000000016 <<< 1075 ∧
    natToF64 100000000000000026 = 4861130398305394690 ∧
    natToF64 100000000000000016 = 4861130398305394689 := by
  refine ⟨by decide, by decide, by decide, by decide, by decide⟩

/-- **C4.** Buffer-bounds violation: for the finite value with bit
pattern `0x49700000000007FF` (`(2^52 + 2047) * 2^100`) and base 2, the
leading-zero fill loop (whose guard uses the buggy `exponent`) keeps
firing until `int_cursor` is decremented past 0 — the 1101st decrement
underflows and the buffer write is out of bounds, so the call panics. -/
theorem to_radix_str_buffer_overflow :
    to_radix_str 5291729562160334847 2 = RadixResult.crash := by decide

/-- **C5.** The error surface: out-of-range bases do fail with an error
carrying the offending base (shown at 1 and 37), but it is not true that
every in-range base succeeds for every value: at base 2 the value with
pattern `0x49700000000007FF` panics instead of returning `Ok`. -/
theorem error_surface_code_bug :
    to_radix_str 0 1 = RadixResult.err 1 ∧
    to_radix_str 0 37 = RadixResult.err 37 ∧
    to_radix_str 0 0 = RadixResult.err 0 ∧
    to_radix_str 9223372036854775808 255 = RadixResult.err 255 ∧
    to_radix_str 5291729562160334847 2 = RadixResult.crash := by
  refine ⟨by decide, by decide, by decide, by decide, by decide⟩

/-- **C8 (counterexample).** The claim says `next_float` at the negative
minimal subnormal (`0x8000000000000001`) returns positive zero with the
sign bit clear; the code actually returns `0x8000000000000000`
(negative zero), whose sign bit is set. -/
theorem next_float_min_negative_sign_set :
    next_float 9223372036854775809 = 9223372036854775808 ∧
    is_pos 9223372036854775808 = false := by
  refine ⟨by decide, by decide⟩

/-- **C8 (amended).** `next_float` at the negative minimal subnormal
returns its bit-pattern predecessor `0x8000000000000000`: negative zero —
numerically zero (zero significand, denormal) but with the sign bit set,
not positive zero. -/
theorem next_float_min_negative_neg_zero :
    next_float 9223372036854775809 = 9223372036854775808 ∧
    significand 9223372036854775808 = 0 ∧
    is_denormal 9223372036854775808 = true ∧
    is_pos 9223372036854775808 = false := by
  refine ⟨by decide, by decide, by decide, by decide⟩

/-- **C10.** `next_float` maps negative zero (`0x8000000000000000`) to
positive zero, and every other negative finite pattern to its bit-pattern
predecessor (the neighbor toward zero); the sign-crossing branch fires
only for negative zero. -/
theorem next_float_negative_cases :
    next_float 9223372036854775808 = 0 ∧
    is_pos 0 = true ∧
    (∀ b : Nat, 2 ^ 63 < b → b < 2 ^ 64 → b / 2 ^ 52 % 2 ^ 11 ≠ 2047 →
      next_float b = b - 1) := by
  refine ⟨by decide, by decide, ?_⟩
  intro b hb1 hb2 hfin
  have hne : (b == kInfinity) = false := by
    simp only [beq_eq_false_iff_ne, ne_eq, kInfinity]
    omega
  have hpos : is_pos b = false := by
    simp only [is_pos]
    rw [land_sign]
    have h1 : b / 2 ^ 63 % 2 = 1 := by omega
    rw [h1]
    decide
  have hsig : (significand b == 0) = false := by
    simp only [beq_eq_false_iff_ne, ne_eq, significand]
    by_cases hd : is_denormal b = true
    · rw [if_pos hd]
      have hd' : b / 2 ^ 52 % 2 ^ 11 = 0 := by
        simp only [is_denormal] at hd
        rw [land_exp, beq_iff_eq] at hd
        omega
      rw [land_sig]
      omega
    · rw [if_neg hd]
      simp only [kHiddenBit]
      omega
  simp [next_float, hne, hpos, hsig]

/-- **C6.** For every base in `[2, 36]`, `to_radix_str` maps every NaN
pattern to `Ok "NaN"`, `+0.0` and `-0.0` to `Ok "0"`, `+∞` to
`Ok "Infinity"` and `-∞` to `Ok "-Infinity"`, independent of the base. -/
theorem special_value_literals (base : Nat) (hb : 2 ≤ base ∧ base ≤ 36)
    (n : Nat) (hn : isNanP n = true) :
    to_radix_str n base = RadixResult.ok "NaN" ∧
    to_radix_str 0 base = RadixResult.ok "0" ∧
    to_radix_str 9223372036854775808 base = RadixResult.ok "0" ∧
    to_radix_str 9218868437227405312 base = RadixResult.ok "Infinity" ∧
    to_radix_str 18442240474082181120 base = RadixResult.ok "-Infinity" := by
  refine ⟨?_, ?_, ?_, ?_, ?_⟩ <;>
    (unfold to_radix_str; rw [if_neg (not_not_intro hb)])
  · rw [if_pos hn]
  · rfl
  · rfl
  · rfl
  · rfl

/-- The fractional-digit loop cannot run out of fuel: every iteration
pushes a character, and the buffer bound stops the loop (by panic at the
latest) once the stack reaches length 1100. -/
theorem fracLoop_ne_fuelOut (base baseF : Nat) :
    ∀ (fuel fr d i : Nat) (stack : List Char), 1 ≤ fuel →
      1101 ≤ fuel + stack.length →
      fracLoop base baseF fuel fr d i stack ≠ .fuelOut := by
  intro fuel
  induction fuel with
  | zero => intro fr d i stack h1 _; omega
  | succ f ih =>
    intro fr d i stack _ hlen
    simp only [fracLoop]
    split
    · intro h; cases h
    · split
      · split
        · split
          · intro h; cases h
          · intro h; cases h
        · split
          · intro h; cases h
          · rename_i hlt _ _
            exact ih _ _ _ _ (by omega) (by simp only [List.length_cons]; omega)
      · intro h; cases h

/-- The leading-zero fill loop cannot run out of fuel. -/
theorem fillLoop_ne_fuelOut (baseF : Nat) :
    ∀ (fuel integer : Nat) (intList : List Char), 1 ≤ fuel →
      1101 ≤ fuel + intList.length →
      fillLoop baseF fuel integer intList ≠ .fuelOut := by
  intro fuel
  induction fuel with
  | zero => intro integer intList h1 _; omega
  | succ f ih =>
    intro integer intList _ hlen
    simp only [fillLoop]
    split
    · split
      · exact ih _ _ (by rename_i h _; omega) (by simp only [List.length_cons]; omega)
      · intro h; cases h
    · intro h; cases h

/-- The integer-digit loop cannot run out of fuel. -/
theorem intLoop_ne_fuelOut (baseF : Nat) :
    ∀ (fuel integer : Nat) (intList : List Char), 1 ≤ fuel →
      1101 ≤ fuel + intList.length →
      intLoop baseF fuel integer intList ≠ .fuelOut := by
  intro fuel
  induction fuel with
  | zero => intro integer intList h1 _; omega
  | succ f ih =>
    intro integer intList _ hlen
    simp only [intLoop]
    split
    · split
      · intro h; cases h
      · split
        · intro h; cases h
        · exact ih _ _ (by rename_i h _ _ _; omega)
            (by simp only [List.length_cons]; omega)
    · intro h; cases h


theorem fracPart_ne_fuelOut (base baseF fraction delta integer : Nat) :
    fracPart base baseF fraction delta integer ≠ .fuelOut := by
  unfold fracPart
  split
  · exact fracLoop_ne_fuelOut _ _ _ _ _ _ _ (by omega) (by simp)
  · intro h; cases h

theorem intPart_ne_fuelOut (baseF : Nat) (neg : Bool) (integer : Nat)
    (stack : List Char) : intPart baseF neg integer stack ≠ .fuelOut := by
  unfold intPart
  split
  · intro h; cases h
  · rename_i heq
    exact absurd heq (fillLoop_ne_fuelOut _ _ _ _ (by omega) (by simp))
  · split
    · intro h; cases h
    · rename_i heq
      exact absurd heq (intLoop_ne_fuelOut _ _ _ _ (by omega) (by omega))
    · split
      · split
        · intro h; cases h
        · intro h; cases h
      · intro h; cases h

theorem dispatchFrac_ne_fuelOut (baseF : Nat) (neg : Bool)
    (r : LoopOut (List Char × Nat)) (hr : r ≠ .fuelOut) :
    dispatchFrac baseF neg r ≠ .fuelOut := by
  cases r with
  | crash => intro h; cases h
  | fuelOut => exact absurd rfl hr
  | out p =>
    obtain ⟨stack, integer1⟩ := p
    exact intPart_ne_fuelOut _ _ _ _

/-- **C9.** For every input pattern and every base in `[2, 36]`,
`to_radix_str` terminates: each of the four loops (fractional digits,
backward carry walk, leading-zero fill, integer digits) exits after
finitely many iterations — the carry walk is structural recursion on the
written stack, and the three fuelled loops never exhaust their fuel
because each iteration moves its buffer cursor, so within at most 1101
iterations the loop has exited normally or hit the buffer bound. -/
theorem to_radix_str_terminates (self base : Nat) (hb : 2 ≤ base ∧ base ≤ 36) :
    to_radix_str self base ≠ RadixResult.fuelOut := by
  unfold to_radix_str
  rw [if_neg (not_not_intro hb)]
  split
  · intro h; cases h
  split
  · intro h; cases h
  split
  · intro h; cases h
  exact dispatchFrac_ne_fuelOut _ _ _ (fracPart_ne_fuelOut _ _ _ _ _)

/-- The scaled magnitude `natMag` is strictly monotone on sign-clear
patterns: larger bit pattern means strictly larger magnitude. -/
theorem natMag_lt {a b : Nat} (hab : a < b) (hb : b < 2 ^ 63) :
    natMag a < natMag b := by
  have ha63 : a < 2 ^ 63 := lt_trans hab hb
  have hea : efield a = a / 2 ^ 52 := by unfold efield; omega
  have heb : efield b = b / 2 ^ 52 := by unfold efield; omega
  have hva : natMag a =
      (if a / 2 ^ 52 = 0 then a % 2 ^ 52 else a % 2 ^ 52 + 2 ^ 52) *
        2 ^ max (a / 2 ^ 52) 1 := by
    unfold natMag mant sfield
    rw [hea]
  have hvb : natMag b =
      (if b / 2 ^ 52 = 0 then b % 2 ^ 52 else b % 2 ^ 52 + 2 ^ 52) *
        2 ^ max (b / 2 ^ 52) 1 := by
    unfold natMag mant sfield
    rw [heb]
  rcases Nat.lt_or_ge (a / 2 ^ 52) (b / 2 ^ 52) with hlt | hge
  · have heb1 : 1 ≤ b / 2 ^ 52 := by omega
    have hmb : 2 ^ 52 * 2 ^ (b / 2 ^ 52) ≤ natMag b := by
      rw [hvb, if_neg (by omega), max_eq_left heb1]
      exact Nat.mul_le_mul_right _ (by omega)
    refine lt_of_lt_of_le ?_ hmb
    rw [hva]
    rcases Nat.eq_zero_or_pos (a / 2 ^ 52) with h0 | h1
    · rw [if_pos h0, h0]
      have hm : a % 2 ^ 52 < 2 ^ 52 := Nat.mod_lt a (by norm_num)
      calc a % 2 ^ 52 * 2 ^ max 0 1 < 2 ^ 52 * 2 ^ 1 := by
            rw [show max 0 1 = 1 from rfl]
            exact (Nat.mul_lt_mul_right (by norm_num : (0:Nat) < 2 ^ 1)).mpr hm
        _ ≤ 2 ^ 52 * 2 ^ (b / 2 ^ 52) :=
            Nat.mul_le_mul_left _ (Nat.pow_le_pow_right (by norm_num) heb1)
    · rw [if_neg (by omega), max_eq_left h1]
      have hm : a % 2 ^ 52 + 2 ^ 52 < 2 ^ 53 := by
        have := Nat.mod_lt a (y := 2 ^ 52) (by norm_num)
        omega
      calc (a % 2 ^ 52 + 2 ^ 52) * 2 ^ (a / 2 ^ 52)
          < 2 ^ 53 * 2 ^ (a / 2 ^ 52) :=
            (Nat.mul_lt_mul_right (Nat.pos_pow_of_pos _ (by norm_num))).mpr hm
        _ = 2 ^ 52 * 2 ^ (a / 2 ^ 52 + 1) := by rw [pow_succ]; ring
        _ ≤ 2 ^ 52 * 2 ^ (b / 2 ^ 52) :=
            Nat.mul_le_mul_left _ (Nat.pow_le_pow_right (by norm_num) (by omega))
  · have heq : a / 2 ^ 52 = b / 2 ^ 52 :=
      le_antisymm (Nat.div_le_div_right (le_of_lt hab)) hge
    have hs : a % 2 ^ 52 < b % 2 ^ 52 := by omega
    rw [hva, hvb, heq]
    refine (Nat.mul_lt_mul_right (Nat.pos_pow_of_pos _ (by norm_num))).mpr ?_
    split
    · exact hs
    · omega

theorem signB_false {p : Nat} (hp : p < 2 ^ 63) : signB p = false := by
  unfold signB
  have h : p / 2 ^ 63 % 2 = 0 := by omega
  rw [h]
  rfl

theorem signB_true {p : Nat} (h1 : 2 ^ 63 ≤ p) (h2 : p < 2 ^ 64) :
    signB p = true := by
  unfold signB
  have h : p / 2 ^ 63 % 2 = 1 := by omega
  rw [h]
  rfl

theorem valQ_of_pos {p : Nat} (hp : p < 2 ^ 63) :
    valQ p = (natMag p : ℚ) / 2 ^ 1075 := by
  unfold valQ
  rw [signB_false hp]
  simp

theorem valQ_nonneg {p : Nat} (hp : p < 2 ^ 63) : 0 ≤ valQ p := by
  rw [valQ_of_pos hp]
  positivity

theorem valQ_nonpos_of_neg {p : Nat} (h1 : 2 ^ 63 ≤ p) (h2 : p < 2 ^ 64) :
    valQ p ≤ 0 := by
  unfold valQ
  rw [signB_true h1 h2]
  simp
  positivity

theorem valQ_lt_iff {a b : Nat} (ha : a < 2 ^ 63) (hb : b < 2 ^ 63) :
    valQ a < valQ b ↔ natMag a < natMag b := by
  rw [valQ_of_pos ha, valQ_of_pos hb,
    div_lt_div_iff_of_pos_right (by positivity), Nat.cast_lt]

theorem valQ_le_iff {a b : Nat} (ha : a < 2 ^ 63) (hb : b < 2 ^ 63) :
    valQ a ≤ valQ b ↔ natMag a ≤ natMag b := by
  rw [valQ_of_pos ha, valQ_of_pos hb,
    div_le_div_iff_of_pos_right (by positivity), Nat.cast_le]

/-- **C7.** For every sign-clear non-NaN pattern, `next_float` saturates
at `+∞` (`next_float(+∞) = +∞`, `next_float(maxFinite) = +∞`) and
otherwise returns `p + 1`, which is the smallest representable value
strictly greater than `p`: its value exceeds `valQ p`, and every finite
pattern whose value exceeds `valQ p` has value at least `valQ (p + 1)`. -/
theorem next_float_least_upper (p : Nat) (hp : p < 2 ^ 63)
    (hnan : isNanP p = false) :
    (p = kInfinity → next_float p = kInfinity) ∧
    (p ≠ kInfinity →
      next_float p = p + 1 ∧
      (p = maxFiniteP → next_float p = kInfinity) ∧
      (p ≠ maxFiniteP →
        valQ p < valQ (p + 1) ∧
        ∀ q : Nat, q < 2 ^ 64 → isNanP q = false → isInfP q = false →
          valQ p < valQ q → valQ (p + 1) ≤ valQ q)) := by
  constructor
  · intro he; subst he; decide
  intro hne
  have hfin : p < kInfinity := by
    simp only [isNanP, Bool.and_eq_false_iff, beq_eq_false_iff_ne, ne_eq,
      bne_eq_false_iff_eq, efield, sfield] at hnan
    unfold kInfinity
    unfold kInfinity at hne
    rcases hnan with h | h
    · omega
    · omega
  have hnf : next_float p = p + 1 := by
    have h1 : (p == kInfinity) = false := by
      simp only [beq_eq_false_iff_ne]; exact hne
    have h2 : is_pos p = true := by
      simp only [is_pos]
      rw [land_sign]
      have h : p / 2 ^ 63 % 2 = 0 := by omega
      rw [h]
      rfl
    simp [next_float, h1, h2]
  refine ⟨hnf, ?_, ?_⟩
  · intro hmax
    subst hmax
    decide
  intro hmax2
  have hp1 : p + 1 < 2 ^ 63 := by
    unfold kInfinity at hfin
    unfold maxFiniteP at hmax2
    omega
  constructor
  · exact (valQ_lt_iff hp hp1).2 (natMag_lt (Nat.lt_succ_self p) hp1)
  · intro q hq64 _ _ hlt
    rcases Nat.lt_or_ge q (2 ^ 63) with hq | hq
    · have hpq : p < q := by
        by_contra hcon
        push_neg at hcon
        rcases eq_or_lt_of_le hcon with he | hl
        · subst he; exact absurd hlt (lt_irrefl _)
        · have := natMag_lt hl hp
          rw [valQ_lt_iff hp hq] at hlt
          omega
      have hle : natMag (p + 1) ≤ natMag q := by
        rcases eq_or_lt_of_le (by omega : p + 1 ≤ q) with he | hl
        · rw [he]
        · exact le_of_lt (natMag_lt hl hq)
      exact (valQ_le_iff hp1 hq).2 hle
    · have h1 := valQ_nonpos_of_neg hq hq64
      have h2 := valQ_nonneg hp
      linarith


/-! ### Witnesses -/

/-- Witness for `next_float_negative_cases`: at the pattern of `-1.0`
(negative, finite, not `-0.0`) `next_float` returns the bit-pattern
predecessor. -/
theorem next_float_negative_cases_witness :
    next_float 13830554455654793216 = 13830554455654793215 :=
  next_float_negative_cases.2.2 13830554455654793216 (by norm_num)
    (by norm_num) (by decide)

/-- Witness for `special_value_literals` at base 16 and the quiet NaN
pattern `0x7FF8000000000000`. -/
theorem special_value_literals_witness :
    to_radix_str 9221120237041090560 16 = RadixResult.ok "NaN" ∧
    to_radix_str 0 16 = RadixResult.ok "0" ∧
    to_radix_str 9223372036854775808 16 = RadixResult.ok "0" ∧
    to_radix_str 9218868437227405312 16 = RadixResult.ok "Infinity" ∧
    to_radix_str 18442240474082181120 16 = RadixResult.ok "-Infinity" :=
  special_value_literals 16 (by norm_num) 9221120237041090560 (by decide)

/-- Witness for `to_radix_str_terminates` at `+0.0`, base 2. -/
theorem to_radix_str_terminates_witness :
    to_radix_str 0 2 ≠ RadixResult.fuelOut :=
  to_radix_str_terminates 0 2 (by norm_num)

/-- Witness for `next_float_least_upper` at the pattern of `1.0`:
`next_float` gives the successor pattern, whose value is strictly above
`1.0` and at most the value `2.0` of another pattern above `1.0`. -/
theorem next_float_least_upper_witness :
    next_float 4607182418800017408 = 4607182418800017409 ∧
    valQ 4607182418800017408 < valQ 4607182418800017409 ∧
    valQ 4607182418800017409 ≤ valQ 4611686018427387904 := by
  have h := next_float_least_upper 4607182418800017408 (by norm_num) (by decide)
  obtain ⟨-, h2⟩ := h
  obtain ⟨ha, -, hc⟩ := h2 (by decide)
  obtain ⟨hlt, hmin⟩ := hc (by decide)
  refine ⟨ha, hlt, hmin 4611686018427387904 (by norm_num) (by decide) (by decide) ?_⟩
  rw [valQ_lt_iff (by norm_num) (by norm_num)]
  decide

end RadixEcma
